import Mathlib

/-!
Shallow embedding of the REINFORCE training notebook (`REINFORCE_exercise.ipynb`):
the return calculator (`compute_returns_baseline`), the episode-collection loop,
the trainer loop of `reinforce` / `reinforce_baseline` with its stopping rule, the
experiment-runner aggregation, and the `moving_average` smoother.

Rewards, scores and discount factors are modelled as exact rationals (the source
uses machine floats; every claim here is about exact-arithmetic behaviour), except
for the mean/std normalization step, which needs a real square root and is modelled
over `ℝ`.
-/

/-- Embedding of the backward-accumulation loop of `compute_returns_baseline`
(the part before normalization):
`r = 0; for step in reversed(range(len(rewards))): r = rewards[step] + gamma * r;
returns.insert(0, r)`.
The loop builds the list back to front, so the head of the result of the recursive
call is exactly the accumulator `r` coming out of the previous (later-in-time)
iteration, and `0` when there is no later step. Polymorphic so it can be read at
`ℚ` (exact tests) and at `ℝ` (normalization). -/
def compute_returns_pre {α : Type} [Add α] [Mul α] [Zero α] :
    List α → α → List α
  | [], _ => []
  | x :: xs, gamma =>
    let rest := compute_returns_pre xs gamma
    (x + gamma * rest.headD 0) :: rest

/-- `compute_returns_pre` yields one return per reward. -/
theorem compute_returns_pre_length {α : Type} [Add α] [Mul α] [Zero α]
    (rewards : List α) (gamma : α) :
    (compute_returns_pre rewards gamma).length = rewards.length := by
  induction rewards with
  | nil => rfl
  | cons x xs ih => simpa [compute_returns_pre] using ih

/-- C1.
For every non-empty reward sequence and every discount factor, the
pre-normalization return sequence of `compute_returns_baseline` has one entry per
reward and satisfies the backward recurrence `G_t = r_t + γ * G_(t+1)` for `t < T`,
with `G_T = r_T`. -/
theorem returns_satisfy_recurrence (rewards : List ℚ) (gamma : ℚ)
    (h : rewards ≠ []) :
    (compute_returns_pre rewards gamma).length = rewards.length ∧
    (∀ t, t + 1 < rewards.length →
      (compute_returns_pre rewards gamma).getD t 0 =
        rewards.getD t 0 + gamma * (compute_returns_pre rewards gamma).getD (t + 1) 0) ∧
    (compute_returns_pre rewards gamma).getD (rewards.length - 1) 0 =
      rewards.getD (rewards.length - 1) 0 := by
  refine ⟨compute_returns_pre_length rewards gamma, ?_, ?_⟩
  · clear h
    induction rewards with
    | nil => intro t ht; simp at ht
    | cons x xs ih =>
      intro t ht
      match t with
      | 0 =>
        have hxs : xs ≠ [] := by
          intro hnil; subst hnil; simp at ht
        match hx : compute_returns_pre xs gamma with
        | [] =>
          exfalso
          have := compute_returns_pre_length xs gamma
          rw [hx] at this
          exact hxs (List.eq_nil_of_length_eq_zero this.symm)
        | g :: gs =>
          simp [compute_returns_pre, hx]
      | t' + 1 =>
        have ht' : t' + 1 < xs.length := by simpa using ht
        simpa [compute_returns_pre] using ih t' ht'
  · induction rewards with
    | nil => exact absurd rfl h
    | cons x xs ih =>
      match xs with
      | [] => simp [compute_returns_pre]
      | y :: ys =>
        have hlen : (compute_returns_pre (y :: ys) gamma).length = ys.length + 1 := by
          simpa using compute_returns_pre_length (y :: ys) gamma
        have hstep := ih (by simp)
        simp only [List.length_cons, Nat.add_sub_cancel] at hstep ⊢
        simpa [compute_returns_pre] using hstep

/-- Witness for C1 at the spec scenario `rewards = [1,1,1]`, `γ = 1/2`
(plain returns `[7/4, 3/2, 1]`). -/
theorem returns_satisfy_recurrence_witness :
    ([(1 : ℚ), 1, 1] ≠ []) ∧
    (compute_returns_pre [(1 : ℚ), 1, 1] (1/2)).getD 0 0 =
      ([(1 : ℚ), 1, 1]).getD 0 0 +
        (1/2) * (compute_returns_pre [(1 : ℚ), 1, 1] (1/2)).getD (0 + 1) 0 ∧
    (compute_returns_pre [(1 : ℚ), 1, 1] (1/2)).getD ([(1 : ℚ), 1, 1].length - 1) 0 =
      ([(1 : ℚ), 1, 1]).getD ([(1 : ℚ), 1, 1].length - 1) 0 :=
  ⟨by decide,
   (returns_satisfy_recurrence [(1 : ℚ), 1, 1] (1/2) (by decide)).2.1 0 (by decide),
   (returns_satisfy_recurrence [(1 : ℚ), 1, 1] (1/2) (by decide)).2.2⟩

/-- Embedding of the per-episode score bookkeeping of `reinforce` /
`reinforce_baseline`: `scores.append(sum(rewards))`. -/
def episode_score (rewards : List ℚ) : ℚ := rewards.sum

/-- C9.
With `γ = 1` (the notebook configuration) the first entry of the
pre-normalization return sequence is the sum of all rewards, i.e. exactly the
episode score the trainer appends to its score history. -/
theorem returns_head_eq_episode_score (rewards : List ℚ) (h : rewards ≠ []) :
    (compute_returns_pre rewards 1).headD 0 = episode_score rewards := by
  induction rewards with
  | nil => exact absurd rfl h
  | cons x xs ih =>
    match xs with
    | [] => simp [compute_returns_pre, episode_score]
    | y :: ys =>
      have hy := ih (by simp)
      simp only [compute_returns_pre, List.headD_cons, one_mul, episode_score] at hy ⊢
      rw [hy]
      simp [episode_score]

/-- Witness for C9 at `rewards = [1, 2, 3]` (first return `6 = 1+2+3`). -/
theorem returns_head_eq_episode_score_witness :
    ([(1 : ℚ), 2, 3] ≠ []) ∧
    (compute_returns_pre [(1 : ℚ), 2, 3] 1).headD 0 = episode_score [(1 : ℚ), 2, 3] :=
  ⟨by decide, returns_head_eq_episode_score [(1 : ℚ), 2, 3] (by decide)⟩

/-- Embedding of `np.cumsum(a)`: entry `t` is `a[0] + ... + a[t]`. -/
def cumsum (a : List ℚ) : List ℚ :=
  (List.range a.length).map (fun t => (a.take (t + 1)).sum)

/-- Embedding of `moving_average`:
`ret = np.cumsum(a); ret[n:] = ret[n:] - ret[:-n]; return ret / n`.
The slice assignment replaces entry `t` (for `n ≤ t`) by `cumsum[t] - cumsum[t-n]`
(the right-hand side is materialized before the write, so there is no aliasing),
leaves entries `t < n` as `cumsum[t]`, and everything is divided by `n`. -/
def moving_average (a : List ℚ) (n : ℕ) : List ℚ :=
  let ret := cumsum a
  (List.range a.length).map (fun t =>
    (if n ≤ t then ret.getD t 0 - ret.getD (t - n) 0 else ret.getD t 0) / (n : ℚ))

theorem cumsum_getD (a : List ℚ) (t : ℕ) (ht : t < a.length) :
    (cumsum a).getD t 0 = (a.take (t + 1)).sum := by
  unfold cumsum
  rw [List.getD_eq_getElem _ _ (by simpa using ht)]
  simp

theorem moving_average_getD (a : List ℚ) (n t : ℕ) (ht : t < a.length) :
    (moving_average a n).getD t 0 =
      (if n ≤ t then (cumsum a).getD t 0 - (cumsum a).getD (t - n) 0
       else (cumsum a).getD t 0) / (n : ℚ) := by
  unfold moving_average
  rw [List.getD_eq_getElem _ _ (by simpa using ht)]
  simp

/-- C6.
`moving_average a n` is a trailing moving average: past the warm-up region
(`n - 1 ≤ t < len a`, with `1 ≤ n ≤ len a`) entry `t` is the arithmetic mean of
the `n` entries `a[t-n+1..t]`. -/
theorem moving_average_is_trailing_mean (a : List ℚ) (n t : ℕ)
    (hn : 1 ≤ n) (hna : n ≤ a.length) (htl : n - 1 ≤ t) (ht : t < a.length) :
    (moving_average a n).getD t 0 = ((a.drop (t + 1 - n)).take n).sum / (n : ℚ) := by
  rw [moving_average_getD a n t ht]
  rcases le_or_lt n t with hle | hlt
  · rw [if_pos hle]
    have hsplit : t + 1 = (t + 1 - n) + n := by omega
    have htn : t - n < a.length := by omega
    rw [cumsum_getD a t ht, cumsum_getD a (t - n) htn]
    have htn1 : t - n + 1 = t + 1 - n := by omega
    have key : a.take (t + 1) = a.take (t + 1 - n) ++ (a.drop (t + 1 - n)).take n := by
      conv_lhs => rw [hsplit]
      rw [List.take_add]
    rw [htn1, key, List.sum_append]
    ring
  · rw [if_neg (by omega)]
    rw [cumsum_getD a t ht]
    have h1 : t + 1 = n := by omega
    have h2 : t + 1 - n = 0 := by omega
    rw [h2, List.drop_zero, h1]

/-- Witness for C6 at `a = [1,2,3,4]`, `n = 2`, `t = 2`
(trailing mean `(2+3)/2 = 5/2`). -/
theorem moving_average_is_trailing_mean_witness :
    ((1 : ℕ) ≤ 2 ∧ (2 : ℕ) ≤ [(1 : ℚ), 2, 3, 4].length ∧
      (2 : ℕ) - 1 ≤ 2 ∧ (2 : ℕ) < [(1 : ℚ), 2, 3, 4].length) ∧
    (moving_average [(1 : ℚ), 2, 3, 4] 2).getD 2 0 =
      (([(1 : ℚ), 2, 3, 4].drop (2 + 1 - 2)).take 2).sum / (2 : ℚ) :=
  ⟨⟨by decide, by decide, by decide, by decide⟩,
   moving_average_is_trailing_mean [(1 : ℚ), 2, 3, 4] 2 2
     (by decide) (by decide) (by decide) (by decide)⟩

/-- C10.
`moving_average a n` has the same length as `a`, and each warm-up entry
`t < n - 1` is the prefix sum `a[0] + ... + a[t]` divided by the full window
size `n` (not by the number of entries seen so far). -/
theorem moving_average_length_and_warmup (a : List ℚ) (n : ℕ)
    (hna : n ≤ a.length) :
    (moving_average a n).length = a.length ∧
    ∀ t, t + 1 < n → (moving_average a n).getD t 0 = (a.take (t + 1)).sum / (n : ℚ) := by
  constructor
  · unfold moving_average
    simp
  · intro t htn
    have ht : t < a.length := by omega
    rw [moving_average_getD a n t ht, if_neg (by omega), cumsum_getD a t ht]

/-- Witness for C10 at `a = [1,2,3,4]`, `n = 3`, warm-up index `t = 1`
(entry `(1+2)/3 = 1`). -/
theorem moving_average_length_and_warmup_witness :
    ((3 : ℕ) ≤ [(1 : ℚ), 2, 3, 4].length) ∧
    (moving_average [(1 : ℚ), 2, 3, 4] 3).length = [(1 : ℚ), 2, 3, 4].length ∧
    (moving_average [(1 : ℚ), 2, 3, 4] 3).getD 1 0 =
      ([(1 : ℚ), 2, 3, 4].take (1 + 1)).sum / (3 : ℚ) :=
  ⟨by decide,
   (moving_average_length_and_warmup [(1 : ℚ), 2, 3, 4] 3 (by decide)).1,
   (moving_average_length_and_warmup [(1 : ℚ), 2, 3, 4] 3 (by decide)).2 1 (by decide)⟩

/-- One recorded step of an episode: the data the collection loop of
`reinforce` / `reinforce_baseline` appends (`log_probs.append(...)`,
`rewards.append(reward)`) together with the `done` flag returned by
`env.step(action)`. Polymorphic in the scalar type. -/
structure Transition (α : Type) where
  log_prob : α
  reward : α
  done : Bool

/-- Embedding of the episode-collection loop of `reinforce` / `reinforce_baseline`:
`for t in range(max_episode_length): ...; rewards.append(reward);
log_probs.append(log_prob); if done: break`.
The environment collaborator is abstracted as the sequence of transitions it
would emit step by step (`env t` is the pair recorded at loop index `t`). The
pair of a step is recorded before the `done` test, so the terminal step itself
is kept and nothing after it. -/
def collect_episode (env : ℕ → Transition ℚ) : ℕ → ℕ → List (Transition ℚ)
  | 0, _ => []
  | fuel + 1, t =>
    let tr := env t
    tr :: (if tr.done then [] else collect_episode env fuel (t + 1))

theorem collect_episode_length_le (env : ℕ → Transition ℚ) :
    ∀ fuel t, (collect_episode env fuel t).length ≤ fuel := by
  intro fuel
  induction fuel with
  | zero => intro t; simp [collect_episode]
  | succ k ih =>
    intro t
    by_cases hdone : (env t).done
    · simp [collect_episode, hdone]
    · simp only [collect_episode, hdone, if_neg, Bool.false_eq_true, List.length_cons]
      exact Nat.succ_le_succ (ih (t + 1))

/-- Placeholder transition used only as the out-of-range default of `List.getD`;
its `done` flag is `false`, so it never makes the stopping statements vacuously
true inside the range. -/
def tr_default : Transition ℚ := ⟨0, 0, false⟩

theorem collect_episode_stops_at_done (env : ℕ → Transition ℚ) :
    ∀ fuel t i, i < (collect_episode env fuel t).length →
      ((collect_episode env fuel t).getD i tr_default).done = true →
      (collect_episode env fuel t).length = i + 1 := by
  intro fuel
  induction fuel with
  | zero => intro t i h; simp [collect_episode] at h
  | succ k ih =>
    intro t i h hdone
    by_cases hd : (env t).done
    · have hone : collect_episode env (k + 1) t = [env t] := by
        simp [collect_episode, hd]
      rw [hone] at h ⊢
      simp only [List.length_singleton] at h ⊢
      omega
    · have hcons : collect_episode env (k + 1) t =
          env t :: collect_episode env k (t + 1) := by
        simp [collect_episode, hd]
      rw [hcons] at h hdone ⊢
      match i with
      | 0 =>
        rw [List.getD_cons_zero] at hdone
        exact absurd hdone hd
      | j + 1 =>
        rw [List.getD_cons_succ] at hdone
        have hj : j < (collect_episode env k (t + 1)).length := by
          simpa using h
        have hlen := ih (t + 1) j hj hdone
        simp only [List.length_cons, hlen]

/-- C4.
The collected episode trace never exceeds the step cap, and if the
transition recorded at position `i` has `done = true` then the trace ends
there: no pair is recorded for any later step. -/
theorem collect_episode_bounded_and_stops (env : ℕ → Transition ℚ)
    (max_len : ℕ) :
    (collect_episode env max_len 0).length ≤ max_len ∧
    ∀ i, i < (collect_episode env max_len 0).length →
      ((collect_episode env max_len 0).getD i tr_default).done = true →
      (collect_episode env max_len 0).length = i + 1 :=
  ⟨collect_episode_length_le env max_len 0,
   fun i h hdone => collect_episode_stops_at_done env max_len 0 i h hdone⟩

/-- An environment stub that terminates at step `2` (reward `1` per step). -/
def env_done_at_2 : ℕ → Transition ℚ := fun t => ⟨0, 1, t == 2⟩

/-- Witness for C4: with a step cap of `10` and termination signalled at the
third step, the trace has exactly `3` entries. -/
theorem collect_episode_bounded_and_stops_witness :
    (collect_episode env_done_at_2 10 0).length ≤ 10 ∧
    (collect_episode env_done_at_2 10 0).length = 2 + 1 :=
  ⟨(collect_episode_bounded_and_stops env_done_at_2 10).1,
   (collect_episode_bounded_and_stops env_done_at_2 10).2 2 (by decide) (by decide)⟩

/-- Embedding of `np.mean` on a list of scores (used on `scores_deque`). -/
def mean_q (l : List ℚ) : ℚ := l.sum / l.length

/-- Embedding of `scores_deque.append(s)` for `scores_deque = deque(maxlen=100)`:
appending to a full deque drops the oldest entry. The deque only ever grows one
element at a time, so one conditional drop restores the bound. -/
def deque_push (dq : List ℚ) (s : ℚ) : List ℚ :=
  if 100 < (dq ++ [s]).length then (dq ++ [s]).tail else dq ++ [s]

/-- Embedding of the episode loop of `reinforce` / `reinforce_baseline`
(identical stopping logic in both):
`for episode in range(1, number_episodes+1): ...;
scores.append(sum(rewards)); scores_deque.append(sum(rewards)); ...;
if np.mean(scores_deque) >= 495.0 and verbose: break`.
The sampled episode's total reward is abstracted as a function `f` of the episode
index (sampling, loss assembly and the optimizer step touch no trainer control
state). Note the solved check is conjoined with `verbose` in the source. -/
def reinforce_loop (f : ℕ → ℚ) (verbose : Bool) :
    ℕ → ℕ → List ℚ → List ℚ → List ℚ
  | 0, _, scores, _ => scores
  | fuel + 1, episode, scores, dq =>
    if 495 ≤ mean_q (deque_push dq (f episode)) ∧ verbose = true then
      scores ++ [f episode]
    else
      reinforce_loop f verbose fuel (episode + 1)
        (scores ++ [f episode]) (deque_push dq (f episode))

/-- Hyperparameter cell: `number_episodes = 1500`. -/
def number_episodes : ℕ := 1500

/-- Hyperparameter cell: `max_episode_length = 1000`. -/
def max_episode_length : ℕ := 1000

/-- Embedding of a full `reinforce(seed, verbose)` run, returning its `scores`
list; the per-episode totals are abstracted by `f`. -/
def reinforce (f : ℕ → ℚ) (verbose : Bool) : List ℚ :=
  reinforce_loop f verbose number_episodes 1 [] []

/-- Embedding of the experiment-runner cell:
`for seed in seeds: _, scores = reinforce(int(seed), verbose=False);
all_scores.append(scores)`. `scoreOf sd` abstracts the per-episode totals of
the run seeded with `sd`. -/
def all_scores (scoreOf : ℕ → ℕ → ℚ) (seeds : List ℕ) : List (List ℚ) :=
  seeds.map (fun sd => reinforce (scoreOf sd) false)

/-- With `verbose = False` the solved check can never fire, so the loop always
runs its whole episode budget. -/
theorem reinforce_loop_false_length (f : ℕ → ℚ) :
    ∀ fuel ep scores dq,
      (reinforce_loop f false fuel ep scores dq).length = scores.length + fuel := by
  intro fuel
  induction fuel with
  | zero => intro ep scores dq; simp [reinforce_loop]
  | succ k ih =>
    intro ep scores dq
    rw [reinforce_loop, if_neg (by simp)]
    rw [ih (ep + 1) (scores ++ [f ep]) (deque_push dq (f ep))]
    simp
    omega

/-- C2 counterexample.
A run with constant episode total `500` reaches a rolling average of `500 ≥ 495`
already after its first episode, yet the experiment-runner configuration
(`verbose=False`) runs all `1500` episodes: the claimed early stop never happens
for the per-seed runs. -/
theorem solved_average_ignored_without_verbose :
    495 ≤ mean_q (deque_push [] ((fun _ => (500 : ℚ)) 1)) ∧
    (reinforce (fun _ => (500 : ℚ)) false).length = 1500 :=
  ⟨by norm_num [mean_q, deque_push],
   reinforce_loop_false_length (fun _ => (500 : ℚ)) number_episodes 1 [] []⟩

/-- C2 (amended).
The solved check `np.mean(scores_deque) >= 495.0 and verbose` stops the trainer
immediately — no further episode runs — only when `verbose` is true; the
per-seed runs launched by the experiment runner pass `verbose=False`, so they
never stop early and every per-seed score sequence has length exactly
`number_episodes`. -/
theorem stopping_rule_gated_on_verbose :
    (∀ (f : ℕ → ℚ) fuel ep scores dq,
        495 ≤ mean_q (deque_push dq (f ep)) →
        reinforce_loop f true (fuel + 1) ep scores dq = scores ++ [f ep]) ∧
    (∀ f : ℕ → ℚ, (reinforce f false).length = number_episodes) ∧
    (∀ (scoreOf : ℕ → ℕ → ℚ) (seeds : List ℕ) (l : List ℚ),
        l ∈ all_scores scoreOf seeds → l.length = number_episodes) := by
  refine ⟨?_, ?_, ?_⟩
  · intro f fuel ep scores dq h
    rw [reinforce_loop, if_pos ⟨h, rfl⟩]
  · intro f
    simpa using reinforce_loop_false_length f number_episodes 1 [] []
  · intro scoreOf seeds l hl
    simp only [all_scores, List.mem_map] at hl
    obtain ⟨sd, _, rfl⟩ := hl
    simpa using reinforce_loop_false_length (scoreOf sd) number_episodes 1 [] []

/-- Witness for the amended C2: with `verbose=true` and constant total `500`,
the run stops after one episode; with `verbose=false` (and a member of
`all_scores`) it always runs `number_episodes = 1500` episodes. -/
theorem stopping_rule_gated_on_verbose_witness :
    reinforce_loop (fun _ => (500 : ℚ)) true (3 + 1) 1 [] [] = [(500 : ℚ)] ∧
    (reinforce (fun _ => (0 : ℚ)) false).length = number_episodes ∧
    (reinforce ((fun _ _ => (1 : ℚ)) 7) false).length = number_episodes :=
  ⟨stopping_rule_gated_on_verbose.1 (fun _ => (500 : ℚ)) 3 1 [] []
     (by norm_num [mean_q, deque_push]),
   stopping_rule_gated_on_verbose.2.1 (fun _ => (0 : ℚ)),
   stopping_rule_gated_on_verbose.2.2 (fun _ _ => (1 : ℚ)) [7]
     (reinforce ((fun _ _ => (1 : ℚ)) 7) false) (by simp [all_scores])⟩

/-- Embedding of `np.mean` over reals (`returns.mean()`). -/
noncomputable def mean_r (l : List ℝ) : ℝ := l.sum / l.length

/-- Population variance of a list of reals (`returns.var()`; `np.std` is the
square root of this). -/
noncomputable def var_r (l : List ℝ) : ℝ :=
  (l.map (fun x => (x - mean_r l) ^ 2)).sum / l.length

/-- Embedding of `np.std` over reals (`returns.std()`): the population standard
deviation. -/
noncomputable def std_r (l : List ℝ) : ℝ := Real.sqrt (var_r l)

open Classical in
/-- Modelled from the spec: the normalization line of `compute_returns_baseline`
is left `IMPLEMENT-ME` in the source (`returns = ...` after the backward loop).
Per the spec it subtracts the mean of the returns and divides by their population
standard deviation, and when that standard deviation is zero it returns the
mean-centered (unnormalized) values instead of dividing by zero. The backward
accumulation itself (`compute_returns_pre`) is taken from the source. -/
noncomputable def compute_returns_baseline (rewards : List ℝ) (gamma : ℝ) :
    List ℝ :=
  if std_r (compute_returns_pre rewards gamma) = 0 then
    (compute_returns_pre rewards gamma).map
      (fun g => g - mean_r (compute_returns_pre rewards gamma))
  else
    (compute_returns_pre rewards gamma).map
      (fun g => (g - mean_r (compute_returns_pre rewards gamma)) /
        std_r (compute_returns_pre rewards gamma))

theorem sum_map_sub_const (l : List ℝ) (c : ℝ) :
    (l.map (fun x => x - c)).sum = l.sum - l.length * c := by
  induction l with
  | nil => simp
  | cons x xs ih =>
    simp only [List.map_cons, List.sum_cons, List.length_cons, ih]
    push_cast
    ring

theorem sum_map_div_const (l : List ℝ) (c : ℝ) :
    (l.map (fun x => x / c)).sum = l.sum / c := by
  induction l with
  | nil => simp
  | cons x xs ih => simp [ih, add_div]

/-- C8.
The return sequence has exactly the length of the episode trace it came from:
`compute_returns_baseline` on the trace's reward list yields one entry per
recorded transition. -/
theorem returns_length_eq_trace_length (trace : List (Transition ℝ)) (gamma : ℝ) :
    (compute_returns_baseline (trace.map Transition.reward) gamma).length =
      trace.length := by
  unfold compute_returns_baseline
  split
  · simp [compute_returns_pre_length]
  · simp [compute_returns_pre_length]

/-- C5 counterexample.
On the empty reward sequence `compute_returns_baseline` does return a result —
the empty sequence — rather than failing: the backward loop runs zero iterations
and there is no input validation anywhere in the function. -/
theorem empty_rewards_return_result :
    compute_returns_baseline ([] : List ℝ) 1 = ([] : List ℝ) := by
  unfold compute_returns_baseline
  simp [compute_returns_pre]

/-- C5 (amended).
`compute_returns_baseline` performs no input validation: for every discount
factor, the empty reward sequence flows through the backward loop (zero
iterations) and the normalization, and the empty sequence is returned with no
error. -/
theorem empty_rewards_no_validation (gamma : ℝ) :
    compute_returns_baseline ([] : List ℝ) gamma = ([] : List ℝ) := by
  unfold compute_returns_baseline
  simp [compute_returns_pre]

theorem pre_of_zeros_eval :
    compute_returns_pre ([0, 0, 0, 0] : List ℝ) 1 = [0, 0, 0, 0] := by
  norm_num [compute_returns_pre]

theorem std_r_of_zeros : std_r ([0, 0, 0, 0] : List ℝ) = 0 := by
  have hmean : mean_r ([0, 0, 0, 0] : List ℝ) = 0 := by norm_num [mean_r]
  have hvar : var_r ([0, 0, 0, 0] : List ℝ) = 0 := by norm_num [var_r, hmean]
  rw [std_r, hvar, Real.sqrt_zero]

/-- C3.
When the population standard deviation of the computed returns is zero, the
baseline variant returns the mean-centered, unnormalized values (never dividing
by zero); in particular on rewards `[0,0,0,0]` with `γ = 1` it returns
`[0,0,0,0]`. -/
theorem zero_std_returns_mean_centered :
    (∀ (rewards : List ℝ) (gamma : ℝ),
        std_r (compute_returns_pre rewards gamma) = 0 →
        compute_returns_baseline rewards gamma =
          (compute_returns_pre rewards gamma).map
            (fun g => g - mean_r (compute_returns_pre rewards gamma))) ∧
    compute_returns_baseline ([0, 0, 0, 0] : List ℝ) 1 = [0, 0, 0, 0] := by
  constructor
  · intro rewards gamma h
    unfold compute_returns_baseline
    rw [if_pos h]
  · have hmean : mean_r ([0, 0, 0, 0] : List ℝ) = 0 := by norm_num [mean_r]
    unfold compute_returns_baseline
    rw [pre_of_zeros_eval, if_pos std_r_of_zeros, hmean]
    norm_num

/-- Witness for C3: the standard-deviation hypothesis holds at rewards
`[0,0,0,0]`, `γ = 1`, and there the mean-centered branch is taken. -/
theorem zero_std_returns_mean_centered_witness :
    std_r (compute_returns_pre ([0, 0, 0, 0] : List ℝ) 1) = 0 ∧
    compute_returns_baseline ([0, 0, 0, 0] : List ℝ) 1 =
      (compute_returns_pre ([0, 0, 0, 0] : List ℝ) 1).map
        (fun g => g - mean_r (compute_returns_pre ([0, 0, 0, 0] : List ℝ) 1)) := by
  have h : std_r (compute_returns_pre ([0, 0, 0, 0] : List ℝ) 1) = 0 := by
    rw [pre_of_zeros_eval]; exact std_r_of_zeros
  exact ⟨h, zero_std_returns_mean_centered.1 [0, 0, 0, 0] 1 h⟩

/-- C7.
Whenever the computed returns have nonzero population standard deviation, the
baseline-normalized output has mean exactly `0` and population variance exactly
`1` in exact arithmetic. -/
theorem normalized_returns_standardized (rewards : List ℝ) (gamma : ℝ)
    (h0 : rewards ≠ []) (hstd : std_r (compute_returns_pre rewards gamma) ≠ 0) :
    mean_r (compute_returns_baseline rewards gamma) = 0 ∧
    var_r (compute_returns_baseline rewards gamma) = 1 := by
  have hb : compute_returns_baseline rewards gamma =
      (compute_returns_pre rewards gamma).map
        (fun g => (g - mean_r (compute_returns_pre rewards gamma)) /
          std_r (compute_returns_pre rewards gamma)) := by
    unfold compute_returns_baseline
    rw [if_neg hstd]
  set G := compute_returns_pre rewards gamma with hG
  set μ := mean_r G with hμ
  set σ := std_r G with hσ
  have hGlen : G.length = rewards.length := by
    rw [hG]; exact compute_returns_pre_length rewards gamma
  have hn : (G.length : ℝ) ≠ 0 := by
    have hr : rewards.length ≠ 0 := by
      simpa [List.length_eq_zero] using h0
    rw [hGlen]
    exact_mod_cast hr
  have hμdef : μ = G.sum / G.length := by rw [hμ, mean_r]
  have hsum0 : (G.map (fun g => g - μ)).sum = 0 := by
    rw [sum_map_sub_const, hμdef]
    field_simp
  have hcomp : G.map (fun g => (g - μ) / σ) =
      (G.map (fun g => g - μ)).map (fun x => x / σ) := by
    rw [List.map_map]
    rfl
  have hout_sum : (G.map (fun g => (g - μ) / σ)).sum = 0 := by
    rw [hcomp, sum_map_div_const, hsum0, zero_div]
  have hmean_out : mean_r (compute_returns_baseline rewards gamma) = 0 := by
    rw [hb, mean_r, hout_sum, zero_div]
  refine ⟨hmean_out, ?_⟩
  have hvarG : var_r G = (G.map (fun g => (g - μ) ^ 2)).sum / G.length := by
    rw [var_r, ← hμ]
  have hvar_nonneg : 0 ≤ var_r G := by
    rw [hvarG]
    apply div_nonneg
    · apply List.sum_nonneg
      intro x hx
      obtain ⟨g, _, rfl⟩ := List.mem_map.mp hx
      exact sq_nonneg _
    · positivity
  have hσsq : σ ^ 2 = var_r G := by
    rw [hσ, std_r]
    exact Real.sq_sqrt hvar_nonneg
  have hvar_ne : var_r G ≠ 0 := by
    intro hv
    apply hstd
    rw [hσ, std_r, hv, Real.sqrt_zero]
  have hS_ne : (G.map (fun g => (g - μ) ^ 2)).sum ≠ 0 := by
    intro hs
    apply hvar_ne
    rw [hvarG, hs, zero_div]
  have hm0 : mean_r (G.map (fun g => (g - μ) / σ)) = 0 := by
    rw [← hb]
    exact hmean_out
  rw [hb, var_r, hm0]
  simp only [sub_zero, List.map_map]
  have hfun : ((fun x => x ^ 2) ∘ (fun g => (g - μ) / σ)) =
      fun g => (g - μ) ^ 2 / σ ^ 2 := by
    funext g
    simp [div_pow]
  rw [hfun]
  have hcomp2 : G.map (fun g => (g - μ) ^ 2 / σ ^ 2) =
      (G.map (fun g => (g - μ) ^ 2)).map (fun x => x / σ ^ 2) := by
    rw [List.map_map]
    rfl
  rw [hcomp2, sum_map_div_const, List.length_map, hσsq, hvarG]
  field_simp

theorem std_r_pre_02 : std_r (compute_returns_pre ([0, 2] : List ℝ) 0) = 1 := by
  have hpre : compute_returns_pre ([0, 2] : List ℝ) 0 = [0, 2] := by
    norm_num [compute_returns_pre]
  have hmean : mean_r ([0, 2] : List ℝ) = 1 := by norm_num [mean_r]
  have hvar : var_r ([0, 2] : List ℝ) = 1 := by norm_num [var_r, hmean]
  rw [hpre, std_r, hvar, Real.sqrt_one]

/-- Witness for C7 at rewards `[0, 2]`, `γ = 0`: the returns are `[0, 2]` with
standard deviation `1 ≠ 0`, and the normalized output has mean `0` and
variance `1`. -/
theorem normalized_returns_standardized_witness :
    (([0, 2] : List ℝ) ≠ []) ∧
    std_r (compute_returns_pre ([0, 2] : List ℝ) 0) ≠ 0 ∧
    mean_r (compute_returns_baseline ([0, 2] : List ℝ) 0) = 0 ∧
    var_r (compute_returns_baseline ([0, 2] : List ℝ) 0) = 1 := by
  have hne : std_r (compute_returns_pre ([0, 2] : List ℝ) 0) ≠ 0 := by
    rw [std_r_pre_02]
    norm_num
  exact ⟨by simp,
    hne,
    (normalized_returns_standardized [0, 2] 0 (by simp) hne).1,
    (normalized_returns_standardized [0, 2] 0 (by simp) hne).2⟩
